import Mathlib

/-!
Verification of the Active Object implementation in
`src/behavioral/active_object.py` against its natural-language specification.

The embedding models, faithfully to the source:
* CPython's `heapq` (`_siftdown`, `_siftup`, `heappush`, `heappop`), which is
  what `queue.PriorityQueue` uses for `put`/`get`;
* `Future` (`set_result`, `get_result`) with Python `None` as the Empty
  sentinel (`_result = None` initially; `get_result` loops while
  `_result is None`);
* `MethodRequest` (`__init__`, `execute`, `__lt__`),
  `Scheduler` (`enqueue`, `run`) and `Proxy.process_transaction`.

Python values are modelled as `Option String` (`none` = Python `None`),
servant object references as `Nat`, exceptions as `String`.
-/

namespace ActiveObject

/-- Total list indexing with a default, used to mirror CPython's in-bounds
list indexing (`heap[pos]`). -/
def nthD {α : Type} [Inhabited α] (l : List α) (i : Nat) : α :=
  (l[i]?).getD default

/-- Index of the parent of heap slot `pos`, CPython's `(pos - 1) >> 1`. -/
def parentIdx (pos : Nat) : Nat := (pos - 1) / 2

section Heapq

variable {α : Type} [Inhabited α] (lt : α → α → Bool)

/-- CPython `heapq._siftdown(heap, startpos, pos)` after reading
`newitem = heap[pos]`: bubble the new item up towards the root, moving
parents down, until the parent is not greater. -/
def siftdownLoop (heap : List α) (startpos pos : Nat) (newitem : α) :
    List α :=
  if _h : startpos < pos then
    let parentpos := (pos - 1) / 2
    let parent := nthD heap parentpos
    if lt newitem parent then
      siftdownLoop (heap.set pos parent) startpos parentpos newitem
    else
      heap.set pos newitem
  else
    heap.set pos newitem
termination_by pos
decreasing_by omega

/-- CPython `heapq._siftdown(heap, startpos, pos)`. -/
def siftdown (heap : List α) (startpos pos : Nat) : List α :=
  siftdownLoop lt heap startpos pos (nthD heap pos)

/-- The child index CPython's `_siftup` selects for the hole at `pos`:
`childpos = 2*pos + 1`, bumped to `rightpos = childpos + 1` when
`rightpos < endpos and not heap[childpos] < heap[rightpos]` — so the right
child is preferred when the two children compare equal. -/
def pickChild (heap : List α) (pos : Nat) : Nat :=
  if 2 * pos + 2 < heap.length ∧ lt (nthD heap (2 * pos + 1)) (nthD heap (2 * pos + 2)) = false
  then 2 * pos + 2 else 2 * pos + 1

/-- CPython `heapq._siftup(heap, pos)` after reading `newitem = heap[pos]`:
move the selected child up repeatedly until reaching a leaf, place the new
item there, then `_siftdown` it back up. -/
def siftupLoop (heap : List α) (startpos pos : Nat) (newitem : α) : List α :=
  if _h : 2 * pos + 1 < heap.length then
    siftupLoop (heap.set pos (nthD heap (pickChild lt heap pos))) startpos
      (pickChild lt heap pos) newitem
  else
    siftdownLoop lt (heap.set pos newitem) startpos pos newitem
termination_by heap.length - pos
decreasing_by
  simp only [List.length_set, pickChild]
  split <;> omega

/-- CPython `heapq._siftup(heap, pos)`. -/
def siftup (heap : List α) (pos : Nat) : List α :=
  siftupLoop lt heap pos pos (nthD heap pos)

/-- CPython `heapq.heappush`: `heap.append(item); _siftdown(heap, 0, len(heap)-1)`.
`queue.PriorityQueue.put` calls exactly this. -/
def heappush (heap : List α) (item : α) : List α :=
  siftdown lt (heap ++ [item]) 0 heap.length

/-- CPython `heapq.heappop`: pop the last element; if the heap is now
nonempty, remember the root, put the last element at the root and
`_siftup(heap, 0)`.  `queue.PriorityQueue.get` calls exactly this (blocking
first while the queue is empty; the empty case is modelled as `none`). -/
def heappop (heap : List α) : Option (α × List α) :=
  if heap.isEmpty then none
  else if heap.dropLast.isEmpty then
    some (nthD heap (heap.length - 1), heap.dropLast)
  else
    some (nthD heap.dropLast 0,
      siftup lt (heap.dropLast.set 0 (nthD heap (heap.length - 1))) 0)

/-- Repeatedly `heappop` (the worker's take-highest loop), with explicit
fuel. -/
def heapDrainFuel : Nat → List α → List α
  | 0, _ => []
  | fuel + 1, heap =>
    match heappop lt heap with
    | none => []
    | some (x, heap') => x :: heapDrainFuel fuel heap'

/-- Pop every element of the heap in order. -/
def heapDrain (heap : List α) : List α :=
  heapDrainFuel lt heap.length heap

/-- Push a whole list of items in order into a heap. -/
def pushAll (heap : List α) (items : List α) : List α :=
  items.foldl (heappush lt) heap

end Heapq

/-! ## Heap-shape predicates -/

section HeapPredicates

variable {α : Type} [Inhabited α] (lt : α → α → Bool)

/-- The binary-heap invariant maintained by CPython's heapq: no element
compares less-than its parent. -/
def HeapInv (heap : List α) : Prop :=
  ∀ j, j < heap.length → 0 < j →
    lt (nthD heap j) (nthD heap (parentIdx j)) = false

/-- Heap invariant everywhere except that slot `pos`'s own parent edge is
exempt. -/
def InvExcept (heap : List α) (pos : Nat) : Prop :=
  ∀ j, j < heap.length → 0 < j → j ≠ pos →
    lt (nthD heap j) (nthD heap (parentIdx j)) = false

/-- The children of slot `pos` are dominated by `pos`'s own parent. -/
def DomChildren (heap : List α) (pos : Nat) : Prop :=
  0 < pos → ∀ j, j < heap.length → parentIdx j = pos →
    lt (nthD heap j) (nthD heap (parentIdx pos)) = false

/-- Invariant during `_siftup`'s walk to the leaf: all parent edges hold
except those incident to the hole at `pos`. -/
def HoleInv (heap : List α) (pos : Nat) : Prop :=
  ∀ j, j < heap.length → 0 < j → j ≠ pos → parentIdx j ≠ pos →
    lt (nthD heap j) (nthD heap (parentIdx j)) = false

/-- The children of the hole at `pos` are dominated by the hole's parent. -/
def HoleDom (heap : List α) (pos : Nat) : Prop :=
  0 < pos → ∀ j, j < heap.length → parentIdx j = pos →
    lt (nthD heap j) (nthD heap (parentIdx pos)) = false

end HeapPredicates

/-! ## Future (Result Cell)


`Future.__init__` sets `self._result = None`; Python `None` is the Empty
sentinel.  A Python value is an `Option String`: `none` is Python `None`. -/

/-- A Python value: `none` is Python `None`. -/
abbrev PyVal : Type := Option String

/-- The state of `Future._result`: a Python value, `none` (= Python `None`)
meaning no result has been stored yet.  `Future.__init__` initializes it to
`None`. -/
def futureInit : PyVal := none

/-- `Future.set_result(result)`: `self._result = result` (then
`notify_all`, which only wakes waiters; the stored state is the new
value).  There is no filled-check: a second call silently overwrites. -/
def set_result (_cell : PyVal) (result : PyVal) : PyVal := result

/-- Observable outcome of a `Future.get_result()` call against a given
cell state: the body is `while self._result is None: wait()` followed by
`return self._result`, so the call returns the stored value when it is not
`None` and stays blocked (waiting on the condition) while it is `None`. -/
inductive GetOutcome where
  | blocked : GetOutcome
  | returns (v : PyVal) : GetOutcome
deriving DecidableEq, Repr

/-- `Future.get_result()` as an observation of the cell state. -/
def get_result (cell : PyVal) : GetOutcome :=
  match cell with
  | none => .blocked
  | some v => .returns (some v)

/-- A roomful of `n` concurrent waiters all calling `get_result` against
the same cell: each independently observes the shared `_result`. -/
def waiterOutcomes (n : Nat) (cell : PyVal) : List GetOutcome :=
  List.replicate n (get_result cell)

/-! ## MethodRequest / Scheduler / Proxy

Servant object references are modelled as `Nat`; a bound method is a
function of the servant and the positional/keyword arguments that either
returns a Python value or raises an exception (`Except String`). -/

/-- A servant object reference. -/
abbrev Srv : Type := Nat

/-- Keyword arguments. -/
abbrev Kw : Type := List (String × PyVal)

/-- A Python method: applied to the servant and the bound arguments it
either returns a value (`.ok`) or raises (`.error`). -/
abbrev Method : Type := Srv → List PyVal → Kw → Except String PyVal

instance : Inhabited Method := ⟨fun _ _ _ => .ok none⟩

/-- `MethodRequest`: the deferred invocation record built by
`MethodRequest.__init__` — servant, method, args, kwargs, priority and the
bound `Future` (modelled as an index into the system's cell store). -/
structure Req where
  servant : Srv
  method : Method
  args : List PyVal
  kwargs : Kw
  priority : Int
  future : Nat

instance : Inhabited Req := ⟨⟨0, default, [], [], 0, 0⟩⟩

/-- `MethodRequest.__lt__(self, other)`: `self.priority > other.priority`
(higher priority first).  This is the only comparison the priority queue
uses. -/
def reqLT (a b : Req) : Bool := decide (b.priority < a.priority)

/-- A record of one actual servant invocation
(`self.method(self.servant, *self.args, **self.kwargs)`). -/
structure CallRec where
  servant : Srv
  method : Method
  args : List PyVal
  kwargs : Kw

/-- The observable state of the subsystem: the `Future` cells allocated so
far (indexed by allocation order), the scheduler's `activation_queue`
backing list (a CPython heap), and the log of servant calls actually
performed. -/
structure Sys where
  cells : List PyVal
  heap : List Req
  callLog : List CallRec

/-- A freshly constructed system: no futures, empty queue, nothing
executed. -/
def initSys : Sys := ⟨[], [], []⟩

/-- `MethodRequest.__init__(servant, method, args, kwargs, priority)`:
stores the five fields and allocates a fresh `Future()` (a new cell,
initialized Empty) bound to the request. -/
def MethodRequest.init (sys : Sys) (servant : Srv) (method : Method)
    (args : List PyVal) (kwargs : Kw) (priority : Int) : Sys × Req :=
  ({ sys with cells := sys.cells ++ [futureInit] },
   ⟨servant, method, args, kwargs, priority, sys.cells.length⟩)

/-- `Scheduler.enqueue(method_request)`: `self.activation_queue.put(...)`,
i.e. `heappush` on the backing list. -/
def Scheduler.enqueue (sys : Sys) (req : Req) : Sys :=
  { sys with heap := heappush reqLT sys.heap req }

/-- `MethodRequest.execute()`:
`result = self.method(self.servant, *self.args, **self.kwargs)` followed by
`self.future.set_result(result)`.  The servant call always happens (and is
logged); if it raises, `set_result` is never reached and the exception
propagates out of `execute` (`some e` in the second component). -/
def MethodRequest.execute (sys : Sys) (req : Req) : Sys × Option String :=
  let sys1 := { sys with
    callLog := sys.callLog ++ [⟨req.servant, req.method, req.args, req.kwargs⟩] }
  match req.method req.servant req.args req.kwargs with
  | .error e => (sys1, some e)
  | .ok v =>
    ({ sys1 with cells := sys1.cells.set req.future (set_result (nthD sys1.cells req.future) v) },
     none)

/-- `Scheduler.run()`: `while True: method_request = self.activation_queue.get();
method_request.execute()`.  There is no `try`/`except`: an exception
propagating out of `execute()` propagates out of `run()` and terminates
the (daemon) worker thread, so the loop stops.  An empty queue blocks the
worker (no further steps in a closed run).  `fuel` bounds the number of
loop iterations considered. -/
def Scheduler.run : Nat → Sys → Sys
  | 0, sys => sys
  | fuel + 1, sys =>
    match heappop reqLT sys.heap with
    | none => sys
    | some (req, heap') =>
      let sys1 := { sys with heap := heap' }
      match MethodRequest.execute sys1 req with
      | (sys2, some _) => sys2
      | (sys2, none) => Scheduler.run fuel sys2

/-- `TransactionProcessor.process_transaction(transaction_id, amount)`:
returns the confirmation string built from its own arguments (the `print`
and `sleep` have no observable effect on the state modelled here). -/
def TransactionProcessor.process_transaction : Method :=
  fun _ args _ =>
    .ok (some ("Transaction " ++ ((nthD args 0).getD "None") ++
      " completed for $" ++ ((nthD args 1).getD "None") ++ "."))

/-- `Proxy.process_transaction(transaction_id, amount, priority)`: builds a
`MethodRequest` bound to `self.servant` and
`TransactionProcessor.process_transaction` with args
`(transaction_id, amount)`, enqueues it, and returns
`method_request.future`. -/
def Proxy.process_transaction (sys : Sys) (servant : Srv)
    (transaction_id amount : PyVal) (priority : Int) : Sys × Nat :=
  let (sys1, req) := MethodRequest.init sys servant
    TransactionProcessor.process_transaction [transaction_id, amount] [] priority
  (Scheduler.enqueue sys1 req, req.future)

/-- The servant call a request performs when executed. -/
def callRec (req : Req) : CallRec := ⟨req.servant, req.method, req.args, req.kwargs⟩

/-- The outcome of the bound method applied to the bound servant and
arguments. -/
def runMethod (req : Req) : Except String PyVal :=
  req.method req.servant req.args req.kwargs

/-! ## Scenario data for concrete claims -/

/-- A demonstration request with the given priority and future slot.
`MethodRequest.__lt__` reads only `priority`, so ordering behaviour does
not depend on the other fields. -/
def prioReq (p : Int) (fut : Nat) : Req :=
  ⟨0, TransactionProcessor.process_transaction, [some "T", some "1"], [], p, fut⟩

/-- A bound operation that raises (`ZeroDivisionError`) when executed. -/
def failingMethod : Method := fun _ _ _ => .error "ZeroDivisionError"

/-- Two submissions with a paused worker: a failing high-priority request
(future 0) followed by a normal low-priority one (future 1), built exactly
as `Proxy` would build them. -/
def C1sys : Sys :=
  let p1 := MethodRequest.init initSys 0 failingMethod [] [] 5
  let s1 := Scheduler.enqueue p1.1 p1.2
  let p2 := MethodRequest.init s1 0 TransactionProcessor.process_transaction
    [some "T2", some "500"] [] 1
  Scheduler.enqueue p2.1 p2.2

/-- Folding a whole sequence of `set_result` calls over a cell. -/
def applySets (cell : PyVal) (vs : List PyVal) : PyVal :=
  vs.foldl set_result cell

/-- A bound operation returning a fixed value. -/
def C7m1 : Method := fun _ _ _ => .ok (some "result-one")

/-- A second bound operation returning a fixed value. -/
def C7m2 : Method := fun _ _ _ => .ok (some "result-two")

/-- First demonstration request for the liveness claim. -/
def C7r1 : Req := ⟨0, C7m1, [], [], 5, 0⟩

/-- Second demonstration request for the liveness claim. -/
def C7r2 : Req := ⟨0, C7m2, [], [], 1, 1⟩

/-- A system with two Empty cells and the two demonstration requests
queued (this list is exactly what pushing them in order produces). -/
def C7sys : Sys := ⟨[none, none], [C7r1, C7r2], []⟩

/-- A bound operation returning a fixed value, for the execute claim. -/
def C9m : Method := fun _ _ _ => .ok (some "C9-result")

/-- Demonstration request for the execute claim. -/
def C9req : Req := ⟨7, C9m, [some "T9", some "42"], [], 3, 0⟩

/-! ## Basic facts about `nthD` and `List.set` -/

section NthD

variable {α : Type} [Inhabited α]

theorem nthD_cons_zero (a : α) (t : List α) : nthD (a :: t) 0 = a := by
  simp [nthD]

theorem nthD_cons_succ (a : α) (t : List α) (i : Nat) :
    nthD (a :: t) (i + 1) = nthD t i := by
  simp [nthD]

theorem nthD_set_self {l : List α} {i : Nat} (h : i < l.length) (x : α) :
    nthD (l.set i x) i = x := by
  simp [nthD, List.getElem?_set_eq_of_lt, h]

theorem nthD_set_ne {l : List α} {i j : Nat} {x : α} (h : i ≠ j) :
    nthD (l.set i x) j = nthD l j := by
  simp [nthD, List.getElem?_set_ne, h]

theorem nthD_append_last (l : List α) (x : α) : nthD (l ++ [x]) l.length = x := by
  simp [nthD]

theorem nthD_append_lt {l : List α} {i : Nat} (h : i < l.length) (x : α) :
    nthD (l ++ [x]) i = nthD l i := by
  simp [nthD, List.getElem?_append_left h]

theorem nthD_mem {l : List α} {i : Nat} (h : i < l.length) : nthD l i ∈ l := by
  simp only [nthD, List.getElem?_eq_getElem h, Option.getD_some]
  exact List.getElem_mem h

theorem nthD_dropLast {l : List α} {i : Nat} (h : i < l.length - 1) :
    nthD l.dropLast i = nthD l i := by
  simp only [nthD]
  rw [List.getElem?_eq_getElem (by simpa using h),
    List.getElem?_eq_getElem (by omega : i < l.length)]
  simp [List.getElem_dropLast]

theorem coe_set {l : List α} {i : Nat} (h : i < l.length) (x : α) :
    (↑(l.set i x) : Multiset α) + {nthD l i} = (↑l : Multiset α) + {x} := by
  induction l generalizing i with
  | nil => simp at h
  | cons a t ih =>
    cases i with
    | zero =>
      simp only [List.set_cons_zero, nthD_cons_zero, ← Multiset.coe_singleton,
        Multiset.coe_add, Multiset.coe_eq_coe]
      exact (List.perm_append_singleton a (x :: t)).trans
        ((List.Perm.swap x a t).trans
          (List.perm_append_singleton x (a :: t)).symm)
    | succ i =>
      simp only [List.set_cons_succ, nthD_cons_succ, ← Multiset.cons_coe,
        Multiset.cons_add]
      rw [ih (by simpa using h)]

end NthD

/-! ## Length preservation for the heap operations -/

section HeapLen

variable {α : Type} [Inhabited α] (lt : α → α → Bool)

theorem length_siftdownLoop (heap : List α) (startpos pos : Nat) (newitem : α) :
    (siftdownLoop lt heap startpos pos newitem).length = heap.length := by
  induction heap, startpos, pos, newitem using siftdownLoop.induct lt with
  | case1 heap startpos pos newitem h parentpos parent hlt ih =>
    rw [siftdownLoop]
    simp only [h, dif_pos, hlt, if_pos]
    simpa using ih
  | case2 heap startpos pos newitem h parentpos parent hlt =>
    rw [siftdownLoop]
    simp [h, hlt]
  | case3 heap startpos pos newitem h =>
    rw [siftdownLoop]
    simp [h]

theorem length_siftupLoop (heap : List α) (startpos pos : Nat) (newitem : α) :
    (siftupLoop lt heap startpos pos newitem).length = heap.length := by
  induction heap, startpos, pos, newitem using siftupLoop.induct lt with
  | case1 heap startpos pos newitem h ih =>
    rw [siftupLoop]
    simp only [h, dif_pos]
    simpa using ih
  | case2 heap startpos pos newitem h =>
    rw [siftupLoop]
    simp [h, length_siftdownLoop]

theorem length_heappush (heap : List α) (x : α) :
    (heappush lt heap x).length = heap.length + 1 := by
  simp [heappush, siftdown, length_siftdownLoop]

theorem length_heappop {heap heap' : List α} {x : α}
    (h : heappop lt heap = some (x, heap')) :
    heap'.length + 1 = heap.length := by
  unfold heappop at h
  split at h
  · simp at h
  · rename_i hne
    have hlen : heap.length ≠ 0 := by
      simpa [List.isEmpty_iff_length_eq_zero] using hne
    split at h
    · simp only [Option.some.injEq, Prod.mk.injEq] at h
      obtain ⟨-, h2⟩ := h
      subst h2
      simp only [List.length_dropLast]
      omega
    · simp only [Option.some.injEq, Prod.mk.injEq] at h
      obtain ⟨-, h2⟩ := h
      subst h2
      simp only [siftup, length_siftupLoop, List.length_set, List.length_dropLast]
      omega

end HeapLen

/-! ## Multiset preservation: the heap operations move elements, never
invent, drop or alter them -/

theorem mset_cancel_helper {α : Type} {X Y Z : Multiset α} {p q n : α}
    (h1 : X + {p} = Y + {n}) (h2 : Y + {q} = Z + {p}) : X + {q} = Z + {n} := by
  have key : (X + {q}) + {p} = (Z + {n}) + {p} := by
    calc (X + {q}) + {p} = (X + {p}) + {q} := by rw [add_right_comm]
    _ = (Y + {n}) + {q} := by rw [h1]
    _ = (Y + {q}) + {n} := by rw [add_right_comm]
    _ = (Z + {p}) + {n} := by rw [h2]
    _ = (Z + {n}) + {p} := by rw [add_right_comm]
  exact add_right_cancel key

section HeapMultiset

variable {α : Type} [Inhabited α] (lt : α → α → Bool)

theorem coe_siftdownLoop (heap : List α) (startpos pos : Nat) (newitem : α)
    (h : pos < heap.length) :
    (↑(siftdownLoop lt heap startpos pos newitem) : Multiset α) + {nthD heap pos}
      = (↑heap : Multiset α) + {newitem} := by
  induction heap, startpos, pos, newitem using siftdownLoop.induct lt with
  | case1 heap startpos pos newitem hsp parentpos parent hlt ih =>
    rw [siftdownLoop]
    simp only [hsp, dif_pos, hlt, if_pos]
    have hpp : parentpos ≠ pos := by simp only [parentpos]; omega
    have hppl : parentpos < (heap.set pos parent).length := by
      simp only [List.length_set, parentpos]; omega
    have ih' := ih hppl
    rw [nthD_set_ne (Ne.symm hpp)] at ih'
    exact mset_cancel_helper ih' (coe_set h parent)
  | case2 heap startpos pos newitem hsp parentpos parent hlt =>
    rw [siftdownLoop]
    simp only [hsp, dif_pos, hlt, if_neg, Bool.not_eq_true]
    exact coe_set h newitem
  | case3 heap startpos pos newitem hsp =>
    rw [siftdownLoop]
    simp only [hsp, dif_neg]
    exact coe_set h newitem

theorem pickChild_gt (heap : List α) (pos : Nat) : pos < pickChild lt heap pos := by
  unfold pickChild
  split <;> omega

theorem pickChild_lt_length {heap : List α} {pos : Nat}
    (h : 2 * pos + 1 < heap.length) : pickChild lt heap pos < heap.length := by
  unfold pickChild
  split <;> omega

theorem coe_siftupLoop (heap : List α) (startpos pos : Nat) (newitem : α)
    (h : pos < heap.length) :
    (↑(siftupLoop lt heap startpos pos newitem) : Multiset α) + {nthD heap pos}
      = (↑heap : Multiset α) + {newitem} := by
  induction heap, startpos, pos, newitem using siftupLoop.induct lt with
  | case1 heap startpos pos newitem hc ih =>
    rw [siftupLoop]
    simp only [hc, dif_pos]
    have hgt := pickChild_gt lt heap pos
    have hltl := pickChild_lt_length lt hc
    have hne : pos ≠ pickChild lt heap pos := by omega
    have hl : pickChild lt heap pos < (heap.set pos (nthD heap (pickChild lt heap pos))).length := by
      simp only [List.length_set]; exact hltl
    have ih' := ih hl
    rw [nthD_set_ne hne] at ih'
    exact mset_cancel_helper ih' (coe_set h _)
  | case2 heap startpos pos newitem hc =>
    rw [siftupLoop, dif_neg hc]
    have h1 := coe_siftdownLoop lt (heap.set pos newitem) startpos pos newitem
      (by simpa using h)
    rw [nthD_set_self h] at h1
    have h2 : (↑(siftdownLoop lt (heap.set pos newitem) startpos pos newitem) : Multiset α)
        = ↑(heap.set pos newitem) := add_right_cancel h1
    rw [h2]
    exact coe_set h newitem

theorem coe_heappush (heap : List α) (x : α) :
    (↑(heappush lt heap x) : Multiset α) = (↑heap : Multiset α) + {x} := by
  unfold heappush siftdown
  rw [nthD_append_last]
  have hlen : heap.length < (heap ++ [x]).length := by simp
  have h1 := coe_siftdownLoop lt (heap ++ [x]) 0 heap.length x hlen
  rw [nthD_append_last] at h1
  have h2 : (↑(heap ++ [x]) : Multiset α) = ↑heap + {x} := by
    rw [← Multiset.coe_singleton, ← Multiset.coe_add]
  rw [h2] at h1
  exact add_right_cancel h1

theorem heappop_eq_none {heap : List α} :
    heappop lt heap = none ↔ heap = [] := by
  unfold heappop
  constructor
  · intro h
    split at h
    · rename_i he; exact List.isEmpty_iff.mp he
    · split at h <;> simp at h
  · intro h; subst h; rfl

theorem coe_heappop {heap heap' : List α} {x : α}
    (h : heappop lt heap = some (x, heap')) :
    (↑heap' : Multiset α) + {x} = (↑heap : Multiset α) := by
  unfold heappop at h
  split at h
  · simp at h
  · rename_i hne
    have hlen : heap.length ≠ 0 := by
      simpa [List.isEmpty_iff_length_eq_zero] using hne
    have hsplit : heap.dropLast ++ [nthD heap (heap.length - 1)] = heap := by
      conv_rhs => rw [← List.dropLast_append_getLast (l := heap) (by
        intro hn; exact hlen (by simp [hn]))]
      congr 1
      rw [List.getLast_eq_getElem]
      simp only [nthD]
      rw [List.getElem?_eq_getElem (by omega)]
      rfl
    split at h
    · rename_i hrest
      simp only [Option.some.injEq, Prod.mk.injEq] at h
      obtain ⟨h1, h2⟩ := h
      subst h1; subst h2
      rw [List.isEmpty_iff.mp hrest] at hsplit ⊢
      rw [← hsplit]
      simp [nthD]
    · rename_i hrest
      have hrl : 0 < heap.dropLast.length := by
        rcases Nat.eq_zero_or_pos heap.dropLast.length with h0 | h0
        · exact absurd (List.isEmpty_iff_length_eq_zero.mpr h0) hrest
        · exact h0
      simp only [Option.some.injEq, Prod.mk.injEq] at h
      obtain ⟨h1, h2⟩ := h
      subst h1; subst h2
      unfold siftup
      have hR : (0 : Nat) < (heap.dropLast.set 0 (nthD heap (heap.length - 1))).length := by
        simpa using hrl
      have hs := coe_siftupLoop lt
        (heap.dropLast.set 0 (nthD heap (heap.length - 1))) 0 0
        (nthD (heap.dropLast.set 0 (nthD heap (heap.length - 1))) 0) hR
      have hres : (↑(siftupLoop lt (heap.dropLast.set 0 (nthD heap (heap.length - 1))) 0 0
          (nthD (heap.dropLast.set 0 (nthD heap (heap.length - 1))) 0)) : Multiset α)
          = ↑(heap.dropLast.set 0 (nthD heap (heap.length - 1))) :=
        add_right_cancel hs
      rw [hres]
      have hcs := coe_set (l := heap.dropLast) (i := 0) hrl
        (nthD heap (heap.length - 1))
      rw [hcs]
      conv_rhs => rw [← hsplit]
      rw [← Multiset.coe_add, Multiset.coe_singleton]

theorem coe_heapDrainFuel {fuel : Nat} {heap : List α} (h : heap.length ≤ fuel) :
    (↑(heapDrainFuel lt fuel heap) : Multiset α) = (↑heap : Multiset α) := by
  induction fuel generalizing heap with
  | zero =>
    have : heap = [] := List.length_eq_zero.mp (by omega)
    subst this; rfl
  | succ fuel ih =>
    unfold heapDrainFuel
    cases hp : heappop lt heap with
    | none =>
      rw [(heappop_eq_none lt).mp hp]
    | some p =>
      obtain ⟨x, heap'⟩ := p
      have hlen := length_heappop lt hp
      have hmv := coe_heappop lt hp
      simp only [← Multiset.cons_coe]
      rw [ih (by omega)]
      rw [← hmv, add_comm, Multiset.singleton_add]

theorem heapDrain_perm (heap : List α) : (heapDrain lt heap).Perm heap := by
  rw [← Multiset.coe_eq_coe]
  exact coe_heapDrainFuel lt (Nat.le_refl _)

theorem mem_heapDrainFuel {fuel : Nat} {heap : List α} {y : α}
    (h : y ∈ heapDrainFuel lt fuel heap) : y ∈ heap := by
  induction fuel generalizing heap with
  | zero => simp [heapDrainFuel] at h
  | succ fuel ih =>
    unfold heapDrainFuel at h
    cases hp : heappop lt heap with
    | none => rw [hp] at h; simp at h
    | some p =>
      obtain ⟨x, heap'⟩ := p
      rw [hp] at h
      have hmv := coe_heappop lt hp
      rcases List.mem_cons.mp h with rfl | hy
      · have : y ∈ (↑heap : Multiset α) := by
          rw [← hmv]
          simp
        simpa using this
      · have : y ∈ (↑heap : Multiset α) := by
          rw [← hmv]
          have : y ∈ (↑heap' : Multiset α) := by simpa using ih hy
          exact Multiset.mem_add.mpr (Or.inl this)
        simpa using this

theorem coe_pushAll (heap : List α) (items : List α) :
    (↑(pushAll lt heap items) : Multiset α) = (↑heap : Multiset α) + ↑items := by
  induction items generalizing heap with
  | nil => simp [pushAll]
  | cons a t ih =>
    unfold pushAll at ih ⊢
    simp only [List.foldl_cons]
    rw [ih, coe_heappush, ← Multiset.cons_coe, ← Multiset.singleton_add, add_assoc]

end HeapMultiset

/-! ## The binary-heap invariant and sortedness of the drain order -/

section HeapInvariant

variable {α : Type} [Inhabited α] (lt : α → α → Bool)

theorem heapInv_siftdownLoop
    (htrans : ∀ a b c, lt a b = false → lt b c = false → lt a c = false)
    (hasym : ∀ a b, lt a b = true → lt b a = false)
    (heap : List α) (startpos pos : Nat) (newitem : α)
    (hsp : startpos = 0) (hlen : pos < heap.length)
    (hx : InvExcept lt (heap.set pos newitem) pos)
    (hd : DomChildren lt (heap.set pos newitem) pos) :
    HeapInv lt (siftdownLoop lt heap startpos pos newitem) := by
  induction heap, startpos, pos, newitem using siftdownLoop.induct lt with
  | case1 heap startpos pos newitem hspp parentpos parent hlt ih =>
    rw [siftdownLoop]
    simp only [hspp, dif_pos, hlt, if_pos]
    subst hsp
    have hpos0 : 0 < pos := hspp
    have hpp : parentpos = (pos - 1) / 2 := rfl
    have hpplt : parentpos < pos := by omega
    have hppl : parentpos < heap.length := by omega
    -- value bookkeeping: V = heap.set pos newitem, V' = (heap.set pos parent).set parentpos newitem
    have hVpp : nthD (heap.set pos newitem) parentpos = parent := by
      rw [nthD_set_ne (by omega : pos ≠ parentpos)]
    have hVpos : nthD (heap.set pos newitem) pos = newitem := nthD_set_self hlen newitem
    have hV'len : ((heap.set pos parent).set parentpos newitem).length = heap.length := by
      simp
    have hV'at : ∀ k, k ≠ pos → k ≠ parentpos →
        nthD ((heap.set pos parent).set parentpos newitem) k
          = nthD (heap.set pos newitem) k := by
      intro k hk1 hk2
      rw [nthD_set_ne (Ne.symm hk2), nthD_set_ne (Ne.symm hk1),
        nthD_set_ne (Ne.symm hk1)]
    have hV'pos : nthD ((heap.set pos parent).set parentpos newitem) pos = parent := by
      rw [nthD_set_ne (by omega : parentpos ≠ pos), nthD_set_self hlen]
    have hV'pp : nthD ((heap.set pos parent).set parentpos newitem) parentpos = newitem :=
      nthD_set_self (by simp; omega) newitem
    apply ih rfl (by simp; omega)
    · -- InvExcept V' parentpos
      intro j hj hj0 hjne
      rw [List.length_set, List.length_set] at hj
      by_cases hjpos : j = pos
      · rw [hjpos, show parentIdx pos = parentpos from rfl, hV'pos, hV'pp]
        exact hasym _ _ hlt
      · by_cases hpj : parentIdx j = pos
        · have hjgt : pos < j := by simp only [parentIdx] at hpj; omega
          rw [hpj, hV'pos, hV'at j hjpos (by omega)]
          have := hd hpos0 j (by simpa using hj) (by simpa using hpj)
          rwa [show parentIdx pos = parentpos from rfl, hVpp] at this
        · by_cases hpj2 : parentIdx j = parentpos
          · rw [hpj2, hV'pp, hV'at j hjpos hjne]
            have h1 := hx j (by simpa using hj) hj0 hjpos
            rw [hpj2, hVpp] at h1
            exact htrans _ _ _ h1 (hasym _ _ hlt)
          · rw [hV'at j hjpos hjne, hV'at (parentIdx j) hpj hpj2]
            exact hx j (by simpa using hj) hj0 hjpos
    · -- DomChildren V' parentpos
      intro hpp0 j hj hpj
      rw [List.length_set, List.length_set] at hj
      have hg : parentIdx parentpos < parentpos := by simp only [parentIdx]; omega
      have hjgt : parentpos < j := by
        simp only [parentIdx] at hpj; omega
      have hgval : nthD ((heap.set pos parent).set parentpos newitem) (parentIdx parentpos)
          = nthD (heap.set pos newitem) (parentIdx parentpos) :=
        hV'at _ (by omega) (by omega)
      by_cases hjpos : j = pos
      · subst hjpos
        rw [hV'pos, hgval]
        have h1 := hx parentpos (by simpa using hppl) hpp0 (by omega)
        rwa [hVpp] at h1
      · rw [hV'at j hjpos (by omega), hgval]
        have h1 := hx j (by simpa using hj) (by omega) hjpos
        rw [hpj, hVpp] at h1
        have h2 := hx parentpos (by simpa using hppl) hpp0 (by omega)
        rw [hVpp] at h2
        exact htrans _ _ _ h1 h2
  | case2 heap startpos pos newitem hspp parentpos parent hlt =>
    rw [siftdownLoop]
    simp only [hspp, dif_pos, hlt, if_neg, Bool.not_eq_true]
    subst hsp
    intro j hj hj0
    rw [List.length_set] at hj
    by_cases hjpos : j = pos
    · subst hjpos
      have hppj : parentIdx j ≠ j := by simp only [parentIdx]; omega
      rw [nthD_set_self hlen, nthD_set_ne (Ne.symm hppj)]
      have : nthD heap (parentIdx j) = parent := by
        rw [show parentIdx j = parentpos from rfl]
      rw [this]
      simpa using hlt
    · exact hx j (by simpa using hj) hj0 hjpos
  | case3 heap startpos pos newitem hspp =>
    rw [siftdownLoop]
    simp only [hspp, dif_neg]
    subst hsp
    have hpos : pos = 0 := by omega
    subst hpos
    intro j hj hj0
    exact hx j (by simpa using hj) hj0 (by omega)

theorem heapInv_heappush
    (htrans : ∀ a b c, lt a b = false → lt b c = false → lt a c = false)
    (hasym : ∀ a b, lt a b = true → lt b a = false)
    (heap : List α) (x : α) (hinv : HeapInv lt heap) :
    HeapInv lt (heappush lt heap x) := by
  unfold heappush siftdown
  rw [nthD_append_last]
  apply heapInv_siftdownLoop lt htrans hasym _ _ _ _ rfl (by simp)
  · intro j hj hj0 hjne
    rw [List.length_set, List.length_append] at hj
    have hjlt : j < heap.length := by simp at hj; omega
    have hpjlt : parentIdx j < heap.length := by simp only [parentIdx]; omega
    rw [nthD_set_ne (by omega), nthD_set_ne (by omega),
      nthD_append_lt hjlt, nthD_append_lt hpjlt]
    exact hinv j hjlt hj0
  · intro hp0 j hj hpj
    rw [List.length_set, List.length_append] at hj
    simp only [parentIdx] at hpj
    simp at hj
    omega

theorem pickChild_cases (heap : List α) (pos : Nat) :
    pickChild lt heap pos = 2 * pos + 1 ∨ pickChild lt heap pos = 2 * pos + 2 := by
  unfold pickChild
  split
  · exact Or.inr rfl
  · exact Or.inl rfl

theorem pickChild_parent (heap : List α) (pos : Nat) :
    parentIdx (pickChild lt heap pos) = pos := by
  rcases pickChild_cases lt heap pos with h | h <;>
    simp only [h, parentIdx] <;> omega

theorem pickChild_min (hasym : ∀ a b, lt a b = true → lt b a = false)
    (heap : List α) (pos : Nat) {s : Nat} (hs : s < heap.length) (hs0 : 0 < s)
    (hps : parentIdx s = pos) (hne : s ≠ pickChild lt heap pos) :
    lt (nthD heap s) (nthD heap (pickChild lt heap pos)) = false := by
  have hs2 : s = 2 * pos + 1 ∨ s = 2 * pos + 2 := by
    simp only [parentIdx] at hps; omega
  unfold pickChild at hne ⊢
  split
  · rename_i hcond
    have hsl : s = 2 * pos + 1 := by
      rcases hs2 with h | h
      · exact h
      · rw [if_pos hcond] at hne; omega
    rw [hsl]
    exact hcond.2
  · rename_i hcond
    have hsr : s = 2 * pos + 2 := by
      rcases hs2 with h | h
      · rw [if_neg hcond] at hne; omega
      · exact h
    rw [hsr]
    apply hasym
    rcases Bool.eq_false_or_eq_true (lt (nthD heap (2 * pos + 1)) (nthD heap (2 * pos + 2))) with ht | hf
    · exact ht
    · exact absurd ⟨by omega, hf⟩ hcond

theorem heapInv_siftupLoop
    (htrans : ∀ a b c, lt a b = false → lt b c = false → lt a c = false)
    (hasym : ∀ a b, lt a b = true → lt b a = false)
    (heap : List α) (startpos pos : Nat) (newitem : α)
    (hsp : startpos = 0) (hlen : pos < heap.length)
    (h1 : HoleInv lt heap pos) (h2 : HoleDom lt heap pos) :
    HeapInv lt (siftupLoop lt heap startpos pos newitem) := by
  induction heap, startpos, pos, newitem using siftupLoop.induct lt with
  | case1 heap startpos pos newitem hc ih =>
    rw [siftupLoop]
    simp only [hc, dif_pos]
    have hc'len : pickChild lt heap pos < heap.length := pickChild_lt_length lt hc
    have hc'gt : pos < pickChild lt heap pos := pickChild_gt lt heap pos
    have hc'par : parentIdx (pickChild lt heap pos) = pos := pickChild_parent lt heap pos
    have hRat : ∀ k, k ≠ pos →
        nthD (heap.set pos (nthD heap (pickChild lt heap pos))) k = nthD heap k := by
      intro k hk
      exact nthD_set_ne (Ne.symm hk)
    have hRpos : nthD (heap.set pos (nthD heap (pickChild lt heap pos))) pos
        = nthD heap (pickChild lt heap pos) := nthD_set_self hlen _
    apply ih hsp (by simpa using hc'len)
    · -- HoleInv R' (pickChild)
      intro j hj hj0 hjne hpjne
      rw [List.length_set] at hj
      by_cases hjpos : j = pos
      · rw [hjpos, hRpos, hRat (parentIdx pos) (by simp only [parentIdx]; omega)]
        exact h2 (by omega) _ hc'len hc'par
      · by_cases hpj : parentIdx j = pos
        · have hjgt : pos < j := by simp only [parentIdx] at hpj; omega
          rw [hpj, hRpos, hRat j hjpos]
          exact pickChild_min lt hasym heap pos hj hj0 hpj hjne
        · rw [hRat j hjpos, hRat (parentIdx j) hpj]
          exact h1 j hj hj0 hjpos hpj
    · -- HoleDom R' (pickChild)
      intro hc'0 j hj hpj
      rw [List.length_set] at hj
      have hjgt : pickChild lt heap pos < j := by
        simp only [parentIdx] at hpj; omega
      rw [hc'par, hRpos, hRat j (by omega)]
      have := h1 j hj (by omega) (by omega) (by rw [hpj]; omega)
      rwa [hpj] at this
  | case2 heap startpos pos newitem hc =>
    rw [siftupLoop, dif_neg hc]
    apply heapInv_siftdownLoop lt htrans hasym _ _ _ _ hsp (by simpa using hlen)
    · intro j hj hj0 hjne
      rw [List.length_set, List.length_set] at hj
      by_cases hpj : parentIdx j = pos
      · exfalso
        simp only [parentIdx] at hpj
        omega
      · have hpjne : parentIdx j ≠ pos := hpj
        rw [nthD_set_ne (Ne.symm hjne), nthD_set_ne (Ne.symm hjne),
          nthD_set_ne (Ne.symm hpjne), nthD_set_ne (Ne.symm hpjne)]
        exact h1 j hj hj0 hjne hpjne
    · intro hp0 j hj hpj
      exfalso
      rw [List.length_set, List.length_set] at hj
      simp only [parentIdx] at hpj
      omega

theorem heapInv_heappop
    (htrans : ∀ a b c, lt a b = false → lt b c = false → lt a c = false)
    (hasym : ∀ a b, lt a b = true → lt b a = false)
    {heap heap' : List α} {x : α} (hinv : HeapInv lt heap)
    (h : heappop lt heap = some (x, heap')) : HeapInv lt heap' := by
  unfold heappop at h
  split at h
  · simp at h
  · rename_i hne
    split at h
    · rename_i hrest
      simp only [Option.some.injEq, Prod.mk.injEq] at h
      obtain ⟨-, h2⟩ := h
      subst h2
      intro j hj hj0
      rw [List.length_eq_zero.mp (List.isEmpty_iff_length_eq_zero.mp hrest)] at hj
      simp at hj
    · rename_i hrest
      have hrl : 0 < heap.dropLast.length := by
        rcases Nat.eq_zero_or_pos heap.dropLast.length with h0 | h0
        · exact absurd (List.isEmpty_iff_length_eq_zero.mpr h0) hrest
        · exact h0
      simp only [Option.some.injEq, Prod.mk.injEq] at h
      obtain ⟨-, h2⟩ := h
      subst h2
      unfold siftup
      apply heapInv_siftupLoop lt htrans hasym _ _ _ _ rfl (by simpa using hrl)
      · -- HoleInv of dropLast.set 0 lastelt at the root hole
        intro j hj hj0 hjne hpjne
        rw [List.length_set] at hj
        have hpj0 : 0 < parentIdx j := Nat.pos_of_ne_zero hpjne
        have hpjlt : parentIdx j < j := by simp only [parentIdx]; omega
        rw [nthD_set_ne (by omega : (0 : Nat) ≠ j),
          nthD_set_ne (by omega : (0 : Nat) ≠ parentIdx j),
          nthD_dropLast (by simp only [List.length_dropLast] at hj; omega),
          nthD_dropLast (by simp only [List.length_dropLast] at hj; omega)]
        have : parentIdx j = (j - 1) / 2 := rfl
        exact hinv j (by simp only [List.length_dropLast] at hj; omega) hj0
      · intro h0 _ _ _
        exact absurd h0 (by omega)

theorem nthD_eq_getElem {β : Type} [Inhabited β] {l : List β} {i : Nat}
    (h : i < l.length) : nthD l i = l[i] := by
  simp [nthD, List.getElem?_eq_getElem h]

theorem heapInv_root_min
    (htrans : ∀ a b c, lt a b = false → lt b c = false → lt a c = false)
    (hirr : ∀ a, lt a a = false)
    (heap : List α) (hinv : HeapInv lt heap) :
    ∀ j, j < heap.length → lt (nthD heap j) (nthD heap 0) = false := by
  intro j
  induction j using Nat.strong_induction_on with
  | _ j ih =>
    intro hj
    rcases Nat.eq_zero_or_pos j with rfl | hj0
    · exact hirr _
    · have hpj : parentIdx j < j := by simp only [parentIdx]; omega
      exact htrans _ _ _ (hinv j hj hj0) (ih (parentIdx j) hpj (by omega))

theorem heappop_min
    (htrans : ∀ a b c, lt a b = false → lt b c = false → lt a c = false)
    (hirr : ∀ a, lt a a = false)
    {heap heap' : List α} {x : α} (hinv : HeapInv lt heap)
    (h : heappop lt heap = some (x, heap')) :
    ∀ y ∈ heap', lt y x = false := by
  intro y hy
  have hyh : y ∈ heap := by
    have hmv := coe_heappop lt h
    have : y ∈ (↑heap : Multiset α) := by
      rw [← hmv]
      exact Multiset.mem_add.mpr (Or.inl (by simpa using hy))
    simpa using this
  obtain ⟨i, hi, hiv⟩ := List.mem_iff_getElem.mp hyh
  have hroot := heapInv_root_min lt htrans hirr heap hinv i hi
  rw [nthD_eq_getElem hi, hiv] at hroot
  -- identify x with the root
  unfold heappop at h
  split at h
  · simp at h
  · rename_i hne
    have hlen : heap.length ≠ 0 := by
      simpa [List.isEmpty_iff_length_eq_zero] using hne
    split at h
    · rename_i hrest
      simp only [Option.some.injEq, Prod.mk.injEq] at h
      obtain ⟨-, h2⟩ := h
      rw [← h2] at hy
      rw [List.length_eq_zero.mp (List.isEmpty_iff_length_eq_zero.mp hrest)] at hy
      simp at hy
    · rename_i hrest
      have hrl : 0 < heap.dropLast.length := by
        rcases Nat.eq_zero_or_pos heap.dropLast.length with h0 | h0
        · exact absurd (List.isEmpty_iff_length_eq_zero.mpr h0) hrest
        · exact h0
      simp only [Option.some.injEq, Prod.mk.injEq] at h
      obtain ⟨h1, -⟩ := h
      rw [List.length_dropLast] at hrl
      rw [← h1, nthD_dropLast (by omega)]
      exact hroot

theorem heapDrainFuel_sorted
    (htrans : ∀ a b c, lt a b = false → lt b c = false → lt a c = false)
    (hasym : ∀ a b, lt a b = true → lt b a = false)
    (hirr : ∀ a, lt a a = false)
    (fuel : Nat) (heap : List α) (hinv : HeapInv lt heap) :
    (heapDrainFuel lt fuel heap).Pairwise (fun a b => lt b a = false) := by
  induction fuel generalizing heap with
  | zero => exact List.Pairwise.nil
  | succ fuel ih =>
    unfold heapDrainFuel
    cases hp : heappop lt heap with
    | none => exact List.Pairwise.nil
    | some p =>
      obtain ⟨x, heap'⟩ := p
      refine List.Pairwise.cons ?_ (ih _ (heapInv_heappop lt htrans hasym hinv hp))
      intro y hy
      exact heappop_min lt htrans hirr hinv hp y (mem_heapDrainFuel lt hy)

theorem heapDrain_sorted
    (htrans : ∀ a b c, lt a b = false → lt b c = false → lt a c = false)
    (hasym : ∀ a b, lt a b = true → lt b a = false)
    (hirr : ∀ a, lt a a = false)
    (heap : List α) (hinv : HeapInv lt heap) :
    (heapDrain lt heap).Pairwise (fun a b => lt b a = false) :=
  heapDrainFuel_sorted lt htrans hasym hirr _ heap hinv

theorem heapInv_nil : HeapInv lt ([] : List α) := by
  intro j hj _
  simp at hj

theorem heapInv_pushAll
    (htrans : ∀ a b c, lt a b = false → lt b c = false → lt a c = false)
    (hasym : ∀ a b, lt a b = true → lt b a = false)
    (heap : List α) (items : List α) (hinv : HeapInv lt heap) :
    HeapInv lt (pushAll lt heap items) := by
  induction items generalizing heap with
  | nil => exact hinv
  | cons a t ih =>
    unfold pushAll
    simp only [List.foldl_cons]
    exact ih _ (heapInv_heappush lt htrans hasym heap a hinv)

end HeapInvariant

/-! ## Properties of the `MethodRequest.__lt__` comparator -/

theorem reqLT_trans : ∀ a b c : Req,
    reqLT a b = false → reqLT b c = false → reqLT a c = false := by
  intro a b c h1 h2
  simp only [reqLT, decide_eq_false_iff_not, Int.not_lt] at h1 h2 ⊢
  omega

theorem reqLT_asym : ∀ a b : Req, reqLT a b = true → reqLT b a = false := by
  intro a b h
  simp only [reqLT, decide_eq_true_eq] at h
  simp only [reqLT, decide_eq_false_iff_not, Int.not_lt]
  omega

theorem reqLT_irr : ∀ a : Req, reqLT a a = false := by
  intro a
  simp [reqLT]

/-! ## Behaviour of the worker loop -/

theorem heappop_perm {β : Type} [Inhabited β] (lt : β → β → Bool)
    {heap heap' : List β} {x : β} (h : heappop lt heap = some (x, heap')) :
    (x :: heap').Perm heap := by
  rw [← Multiset.coe_eq_coe, ← Multiset.cons_coe]
  rw [← coe_heappop lt h, add_comm, Multiset.singleton_add]

theorem execute_ok {sys : Sys} {req : Req} {v : PyVal}
    (h : runMethod req = .ok v) :
    MethodRequest.execute sys req =
      ({ cells := sys.cells.set req.future v, heap := sys.heap,
         callLog := sys.callLog ++ [callRec req] }, none) := by
  unfold MethodRequest.execute
  unfold runMethod at h
  rw [h]
  rfl

theorem execute_error {sys : Sys} {req : Req} {e : String}
    (h : runMethod req = .error e) :
    MethodRequest.execute sys req =
      ({ cells := sys.cells, heap := sys.heap,
         callLog := sys.callLog ++ [callRec req] }, some e) := by
  unfold MethodRequest.execute
  unfold runMethod at h
  rw [h]
  rfl

theorem run_callLog_mono (fuel : Nat) (sys : Sys) {c : CallRec}
    (h : c ∈ sys.callLog) : c ∈ (Scheduler.run fuel sys).callLog := by
  induction fuel generalizing sys with
  | zero => exact h
  | succ fuel ih =>
    unfold Scheduler.run
    cases hp : heappop reqLT sys.heap with
    | none => exact h
    | some p =>
      obtain ⟨req, heap'⟩ := p
      simp only
      cases hm : runMethod req with
      | error e =>
        rw [execute_error hm]
        simp only [List.mem_append]
        exact Or.inl h
      | ok v =>
        rw [execute_ok hm]
        simp only
        exact ih _ (by simp only [List.mem_append]; exact Or.inl h)

theorem run_cells_untouched (fuel : Nat) (sys : Sys) (i : Nat)
    (h : ∀ r ∈ sys.heap, r.future ≠ i) :
    ((Scheduler.run fuel sys).cells)[i]? = (sys.cells)[i]? := by
  induction fuel generalizing sys with
  | zero => rfl
  | succ fuel ih =>
    unfold Scheduler.run
    cases hp : heappop reqLT sys.heap with
    | none => rfl
    | some p =>
      obtain ⟨req, heap'⟩ := p
      have hperm := heappop_perm reqLT hp
      have hreq : req ∈ sys.heap := hperm.mem_iff.mp (List.mem_cons_self _ _)
      have hsub : ∀ r ∈ heap', r ∈ sys.heap := by
        intro r hr
        exact hperm.mem_iff.mp (List.mem_cons_of_mem _ hr)
      simp only
      cases hm : runMethod req with
      | error e =>
        rw [execute_error hm]
      | ok v =>
        rw [execute_ok hm]
        simp only
        have hstep := ih
          (Sys.mk (sys.cells.set req.future v) heap' (sys.callLog ++ [callRec req]))
          (fun r hr => h r (hsub r hr))
        simp only at hstep
        rw [hstep]
        exact List.getElem?_set_ne (h req hreq)

/-! ## Claim theorems -/

/-- C1: the claim (and spec section 7) require that an exception raised by
the bound operation is captured and delivered through the Result Cell.
The code does the opposite: `MethodRequest.execute` calls `set_result`
only after the method returns, so the exception propagates out of
`execute()` and out of `Scheduler.run`, killing the worker thread.  In the
two-request scenario `C1sys` (failing request at future 0, normal request
at future 1): after the worker dies, both cells are still Empty (a
`get_result` on the failed invocation's Future blocks forever), exactly
one servant call was made, and the second request is still queued, never
to be executed. -/
theorem C1_exception_not_captured :
    (Scheduler.run 2 C1sys).cells = [none, none] ∧
    get_result (nthD (Scheduler.run 2 C1sys).cells 0) = .blocked ∧
    (Scheduler.run 2 C1sys).callLog.length = 1 ∧
    (Scheduler.run 2 C1sys).heap.length = 1 := by
  refine ⟨?_, ?_, ?_, ?_⟩ <;>
    simp [C1sys, Scheduler.run, Scheduler.enqueue, MethodRequest.init,
      MethodRequest.execute, initSys, heappush, heappop, siftdown, siftup,
      siftdownLoop, siftupLoop, pickChild, nthD, reqLT, failingMethod,
      futureInit, set_result, get_result,
      TransactionProcessor.process_transaction, callRec]

/-- C2 counterexample: `Future.set_result` has no filled-check and raises
nothing; a second `set` silently overwrites, so the stored value does
change after the first `set` — the double-set state differs from the
single-set state. -/
theorem C2_counterexample :
    set_result (set_result futureInit (some "A")) (some "B")
      ≠ set_result futureInit (some "A") := by
  decide

/-- C2 (amended): a second call to `set_result` raises no error and
silently overwrites: after any sequence of `set_result` calls the cell
holds exactly the argument of the most recent call. -/
theorem C2_second_set_overwrites (cell : PyVal) (vs : List PyVal) (v : PyVal) :
    applySets cell (vs ++ [v]) = v := by
  simp [applySets, List.foldl_append, set_result]

/-- C3 counterexample: the claimed equivalence "A executes before B iff
A.priority > B.priority" fails for a pair of equal-priority invocations
present in the queue simultaneously: the first submitted executes first,
yet its priority is not greater than the other's. -/
theorem C3_counterexample :
    (heapDrain reqLT (pushAll reqLT [] [prioReq 5 0, prioReq 5 1])).map Req.future
      = [0, 1] ∧
    ¬ ((prioReq 5 0).priority > (prioReq 5 1).priority) := by
  constructor
  · simp [heapDrain, heapDrainFuel, heappop, heappush, siftdown, siftup,
      siftdownLoop, siftupLoop, pickChild, pushAll, nthD, reqLT, prioReq]
  · decide

/-- C3 (amended): for every pair of invocations present in the queue
simultaneously whose priorities differ, the one with strictly greater
priority executes first — position `i` precedes position `j` in the drain
order iff the priority at `i` is greater.  (Equal-priority pairs are not
ordered by `MethodRequest.__lt__`; see the counterexample.) -/
theorem C3_priority_execution_order (reqs : List Req) (i j : Nat)
    (hi : i < (heapDrain reqLT (pushAll reqLT [] reqs)).length)
    (hj : j < (heapDrain reqLT (pushAll reqLT [] reqs)).length)
    (hne : (nthD (heapDrain reqLT (pushAll reqLT [] reqs)) i).priority ≠
      (nthD (heapDrain reqLT (pushAll reqLT [] reqs)) j).priority) :
    i < j ↔ (nthD (heapDrain reqLT (pushAll reqLT [] reqs)) j).priority <
      (nthD (heapDrain reqLT (pushAll reqLT [] reqs)) i).priority := by
  have hinv := heapInv_pushAll reqLT reqLT_trans reqLT_asym [] reqs (heapInv_nil reqLT)
  have hsort := heapDrain_sorted reqLT reqLT_trans reqLT_asym reqLT_irr _ hinv
  rw [List.pairwise_iff_getElem] at hsort
  rw [nthD_eq_getElem hi, nthD_eq_getElem hj] at hne ⊢
  constructor
  · intro hij
    have hle := hsort i j hi hj hij
    simp only [reqLT, decide_eq_false_iff_not, Int.not_lt] at hle
    omega
  · intro hlt
    by_contra hnij
    rcases Nat.lt_or_ge j i with hji | hij2
    · have hle := hsort j i hj hi hji
      simp only [reqLT, decide_eq_false_iff_not, Int.not_lt] at hle
      omega
    · have : i = j := by omega
      subst this
      exact absurd hlt (lt_irrefl _)

/-- C3 witness: the spec's own instance — priorities submitted in order
[1, 10, 5] drain as [10, 5, 1], and the first drained position precedes
the last iff its priority is greater. -/
theorem C3_priority_execution_order_witness :
    (heapDrain reqLT (pushAll reqLT [] [prioReq 1 0, prioReq 10 1, prioReq 5 2])).map
        Req.priority = [10, 5, 1] ∧
    (0 < 2 ↔
      (nthD (heapDrain reqLT (pushAll reqLT [] [prioReq 1 0, prioReq 10 1, prioReq 5 2])) 2).priority <
      (nthD (heapDrain reqLT (pushAll reqLT [] [prioReq 1 0, prioReq 10 1, prioReq 5 2])) 0).priority) := by
  have hd : (heapDrain reqLT (pushAll reqLT [] [prioReq 1 0, prioReq 10 1, prioReq 5 2])).map
      Req.priority = [10, 5, 1] := by
    simp [heapDrain, heapDrainFuel, heappop, heappush, siftdown, siftup,
      siftdownLoop, siftupLoop, pickChild, pushAll, nthD, reqLT, prioReq]
  have hlen3 : (heapDrain reqLT (pushAll reqLT [] [prioReq 1 0, prioReq 10 1, prioReq 5 2])).length
      = 3 := by
    simpa using congrArg List.length hd
  have h0 : (nthD (heapDrain reqLT (pushAll reqLT [] [prioReq 1 0, prioReq 10 1, prioReq 5 2])) 0).priority
      = 10 := by
    simp [heapDrain, heapDrainFuel, heappop, heappush, siftdown, siftup,
      siftdownLoop, siftupLoop, pickChild, pushAll, nthD, reqLT, prioReq]
  have h2 : (nthD (heapDrain reqLT (pushAll reqLT [] [prioReq 1 0, prioReq 10 1, prioReq 5 2])) 2).priority
      = 1 := by
    simp [heapDrain, heapDrainFuel, heappop, heappush, siftdown, siftup,
      siftdownLoop, siftupLoop, pickChild, pushAll, nthD, reqLT, prioReq]
  exact ⟨hd, C3_priority_execution_order [prioReq 1 0, prioReq 10 1, prioReq 5 2] 0 2
    (by omega) (by omega) (by rw [h0, h2]; decide)⟩

/-- C4 counterexample: FIFO among equal priorities is not guaranteed.
With priorities [10, 5, 5, 1] submitted in that order (futures 0..3), the
drain order is [0, 2, 1, 3]: the two priority-5 invocations execute in
reverse submission order, because `_siftup` prefers the right child when
the children compare equal. -/
theorem C4_counterexample :
    (prioReq 5 1).priority = (prioReq 5 2).priority ∧
    (heapDrain reqLT (pushAll reqLT []
        [prioReq 10 0, prioReq 5 1, prioReq 5 2, prioReq 1 3])).map Req.future
      = [0, 2, 1, 3] := by
  constructor
  · decide
  · simp [heapDrain, heapDrainFuel, heappop, heappush, siftdown, siftup,
      siftdownLoop, siftupLoop, pickChild, pushAll, nthD, reqLT, prioReq]

/-- C4 (amended): equal-priority invocations execute in binary-heap order,
which need not be submission order in general (see the counterexample);
the spec's concrete scenario — exactly three invocations, all priority 5,
submitted to an empty queue — does execute in submission order. -/
theorem C4_three_equal_fifo :
    heapDrain reqLT (pushAll reqLT [] [prioReq 5 0, prioReq 5 1, prioReq 5 2])
      = [prioReq 5 0, prioReq 5 1, prioReq 5 2] := by
  simp [heapDrain, heapDrainFuel, heappop, heappush, siftdown, siftup,
    siftdownLoop, siftupLoop, pickChild, pushAll, nthD, reqLT, prioReq]

/-- C5 counterexample: for the value Python `None`, a `get_result` call
after `set_result(None)` does not return the stored value — the cell is
still observationally Empty (`_result is None`), so the caller stays
blocked rather than receiving `None`. -/
theorem C5_counterexample :
    get_result (set_result futureInit none) = .blocked ∧
    GetOutcome.blocked ≠ GetOutcome.returns none := by
  exact ⟨rfl, by decide⟩

/-- C5 (amended): for every non-`None` value `v` passed to `set_result`, a
`get_result` against the filled cell returns `v` immediately (a caller that
was blocked returns `v` when re-checking after the wakeup), and any number
of concurrent waiters all observe the same value `v`. -/
theorem C5_get_after_set (cell : PyVal) (v : String) (n : Nat) :
    get_result (set_result cell (some v)) = .returns (some v) ∧
    waiterOutcomes n (set_result cell (some v))
      = List.replicate n (.returns (some v)) :=
  ⟨rfl, rfl⟩

/-- C6: Python `None` is the Empty sentinel of `Future`: `get_result`
never returns `None` (any returned value is non-`None`), and after
`set_result(None)` the cell equals the freshly-initialized state, so a
`get_result` caller keeps blocking as if no set had occurred. -/
theorem C6_none_sentinel :
    (∀ (cell r : PyVal), get_result cell = .returns r → r ≠ none) ∧
    (∀ cell : PyVal, set_result cell none = futureInit ∧
      get_result (set_result cell none) = .blocked) := by
  constructor
  · intro cell r h
    cases cell with
    | none => simp [get_result] at h
    | some v =>
      simp only [get_result, GetOutcome.returns.injEq] at h
      rw [← h]
      simp
  · intro cell
    exact ⟨rfl, rfl⟩

/-- C6 witness: a concrete returned value is non-`None`, and a concrete
`set_result(None)` leaves the reader blocked. -/
theorem C6_none_sentinel_witness :
    ((some "x" : PyVal) ≠ none) ∧
    get_result (set_result (some "y" : PyVal) none) = .blocked :=
  ⟨C6_none_sentinel.1 (some "x") (some "x") rfl,
   (C6_none_sentinel.2 (some "y")).2⟩

/-- C7: with the worker alive — every queued operation returns normally,
so no exception kills the loop — every invocation pending in the queue is
executed (its servant call appears in the log) and its Result Cell is set
to its operation's return value, within one worker step per pending
invocation.  Requires the well-formedness the real system guarantees by
construction: each request's Future is a distinct allocated cell. -/
theorem C7_eventual_execution : ∀ (fuel : Nat) (sys : Sys),
    (∀ r ∈ sys.heap, r.future < sys.cells.length) →
    (sys.heap.map Req.future).Nodup →
    (∀ r ∈ sys.heap, ∃ v, runMethod r = Except.ok v) →
    sys.heap.length ≤ fuel →
    ∀ r ∈ sys.heap, callRec r ∈ (Scheduler.run fuel sys).callLog ∧
      ∃ v, runMethod r = .ok v ∧
        ((Scheduler.run fuel sys).cells)[r.future]? = some v := by
  intro fuel
  induction fuel with
  | zero =>
    intro sys hfut hnodup hok hfuel r hr
    have hnil : sys.heap = [] := List.eq_nil_of_length_eq_zero (by omega)
    rw [hnil] at hr
    simp at hr
  | succ fuel ih =>
    intro sys hfut hnodup hok hfuel r hr
    unfold Scheduler.run
    cases hp : heappop reqLT sys.heap with
    | none =>
      rw [(heappop_eq_none reqLT).mp hp] at hr
      simp at hr
    | some p =>
      obtain ⟨req, heap'⟩ := p
      have hperm := heappop_perm reqLT hp
      have hreqmem : req ∈ sys.heap := hperm.mem_iff.mp (List.mem_cons_self _ _)
      obtain ⟨v₀, hv₀⟩ := hok req hreqmem
      simp only
      rw [execute_ok hv₀]
      simp only
      have hsub : ∀ r' ∈ heap', r' ∈ sys.heap := by
        intro r' hr'
        exact hperm.mem_iff.mp (List.mem_cons_of_mem _ hr')
      have hnd := (hperm.map Req.future).nodup_iff.mpr hnodup
      have hhead : req.future ∉ heap'.map Req.future := (List.nodup_cons.mp hnd).1
      have hfut2 : ∀ r' ∈ heap',
          r'.future < (sys.cells.set req.future v₀).length := by
        intro r' hr'
        rw [List.length_set]
        exact hfut r' (hsub r' hr')
      have hfuel2 : heap'.length ≤ fuel := by
        have := length_heappop reqLT hp
        omega
      rcases List.mem_cons.mp (hperm.mem_iff.mpr hr) with rfl | hr'
      · constructor
        · apply run_callLog_mono
          simp
        · refine ⟨v₀, hv₀, ?_⟩
          rw [run_cells_untouched fuel
            (Sys.mk (sys.cells.set r.future v₀) heap' (sys.callLog ++ [callRec r]))
            r.future
            (fun r' hr' heq => hhead (heq ▸ List.mem_map_of_mem Req.future hr'))]
          exact List.getElem?_set_eq_of_lt v₀ (hfut r hreqmem)
      · exact ih (Sys.mk (sys.cells.set req.future v₀) heap'
          (sys.callLog ++ [callRec req])) hfut2 ((List.nodup_cons.mp hnd).2)
          (fun r' hr' => hok r' (hsub r' hr')) hfuel2 r hr'

/-- C7 witness: both demonstration requests are executed and their cells
are filled with their operations' return values. -/
theorem C7_eventual_execution_witness :
    callRec C7r1 ∈ (Scheduler.run 2 C7sys).callLog ∧
    ((Scheduler.run 2 C7sys).cells)[C7r1.future]? = some (some "result-one") := by
  obtain ⟨h1, v, hv, hc⟩ := C7_eventual_execution 2 C7sys
    (by decide) (by decide)
    (by
      intro r hr
      rcases List.mem_cons.mp hr with rfl | hr2
      · exact ⟨some "result-one", rfl⟩
      · rcases List.mem_cons.mp hr2 with rfl | hr3
        · exact ⟨some "result-two", rfl⟩
        · simp at hr3)
    (by decide) C7r1 (List.mem_cons_self _ _)
  have hveq : v = some "result-one" :=
    Except.ok.inj (hv.symm.trans (rfl : runMethod C7r1 = Except.ok (some "result-one")))
  exact ⟨h1, hveq ▸ hc⟩

/-- C8: `Proxy.process_transaction` allocates a fresh Result Cell (the
returned handle is the next cell index, its state is the freshly
initialized Empty state on which `get_result` would block), pushes onto
the Dispatch Queue exactly the `MethodRequest` record binding the shared
servant, `TransactionProcessor.process_transaction`, the two positional
arguments, no keyword arguments, the given priority and the fresh cell —
and performs no servant call itself (the call log is unchanged). -/
theorem C8_proxy_submission (sys : Sys) (servant : Srv)
    (tid amount : PyVal) (p : Int) :
    (Proxy.process_transaction sys servant tid amount p).2 = sys.cells.length ∧
    (Proxy.process_transaction sys servant tid amount p).1.cells
      = sys.cells ++ [futureInit] ∧
    nthD (Proxy.process_transaction sys servant tid amount p).1.cells
      (Proxy.process_transaction sys servant tid amount p).2 = futureInit ∧
    get_result (nthD (Proxy.process_transaction sys servant tid amount p).1.cells
      (Proxy.process_transaction sys servant tid amount p).2) = .blocked ∧
    (Proxy.process_transaction sys servant tid amount p).1.heap
      = heappush reqLT sys.heap
        ⟨servant, TransactionProcessor.process_transaction, [tid, amount], [],
          p, sys.cells.length⟩ ∧
    (Proxy.process_transaction sys servant tid amount p).1.callLog
      = sys.callLog := by
  refine ⟨rfl, rfl, ?_, ?_, rfl, rfl⟩
  · show nthD (sys.cells ++ [futureInit]) sys.cells.length = futureInit
    exact nthD_append_last _ _
  · show get_result (nthD (sys.cells ++ [futureInit]) sys.cells.length) = .blocked
    rw [nthD_append_last]
    rfl

/-- C9: when the bound operation returns normally, `execute()` performs
exactly one servant call — the bound method with the bound positional and
keyword arguments against the bound servant — and then sets the request's
Result Cell to the return value; nothing else in the state changes. -/
theorem C9_execute_normal (sys : Sys) (req : Req) (v : PyVal)
    (h : runMethod req = .ok v) :
    MethodRequest.execute sys req =
      ({ cells := sys.cells.set req.future v, heap := sys.heap,
         callLog := sys.callLog ++ [callRec req] }, none) :=
  execute_ok h

/-- C9 witness: executing the demonstration request stores its result in
its own cell and logs exactly its bound call. -/
theorem C9_execute_normal_witness :
    MethodRequest.execute (Sys.mk [none] [] []) C9req =
      ({ cells := [some "C9-result"], heap := [],
         callLog := [callRec C9req] }, none) :=
  C9_execute_normal (Sys.mk [none] [] []) C9req (some "C9-result") rfl

/-- C10: requests are moved, never altered: draining a queue built by
enqueueing any list of requests yields a permutation of exactly those
request records (every field intact), and `execute` leaves the queue — and
hence every pending request — unchanged. -/
theorem C10_requests_immutable :
    (∀ reqs : List Req,
      (heapDrain reqLT (pushAll reqLT [] reqs)).Perm reqs) ∧
    (∀ (sys : Sys) (req : Req),
      ((MethodRequest.execute sys req).1).heap = sys.heap) := by
  constructor
  · intro reqs
    have h1 := heapDrain_perm reqLT (pushAll reqLT [] reqs)
    have h2 : (pushAll reqLT [] reqs).Perm reqs := by
      rw [← Multiset.coe_eq_coe, coe_pushAll]
      simp
    exact h1.trans h2
  · intro sys req
    unfold MethodRequest.execute
    cases req.method req.servant req.args req.kwargs <;> rfl

end ActiveObject
